import Mathlib

/-!
Verification of the TransSpell spelling corrector (src/transspell.py) against its
natural-language specification.

Strings are modelled as lists of characters (`Str`).  Python's character class
`\w` and `str.lower` are Unicode-aware; we model their ASCII fragment, which is
the fragment exercised by the program's own test sentence and examples.  The
external collaborators (the transformer model and tokenizer, the two enchant
dictionaries, the pandas CSV reader and the NLTK stopword list) are modelled as
explicit parameters: functions supplied in environment records.
-/

/-- A Python string, modelled as its list of characters. -/
abbrev Str := List Char

/-- ASCII fragment of Python's regex word-character class `\w`
(`re.match(r"\W", char)` fails exactly on these characters): letters, digits
and the underscore.  On code points below 128 this agrees exactly with the
Unicode-aware source; non-ASCII letters (which Python also counts as `\w`) are
outside the embedded fragment, so theorems whose truth depends on the cleaning
of individual characters quantify only over ASCII tokens. -/
def isWordChar (c : Char) : Bool :=
  decide ((65 ≤ c.toNat ∧ c.toNat ≤ 90) ∨ (97 ≤ c.toNat ∧ c.toNat ≤ 122) ∨
    (48 ≤ c.toNat ∧ c.toNat ≤ 57) ∨ c.toNat = 95)

/-- ASCII fragment of Python's `str.lower` on a single character.  On code
points below 128 this agrees exactly with the source; outside ASCII, Python's
`str.lower` has mappings this fragment omits, including one-to-many expansions
such as U+0130 lowering to `i` followed by the combining mark U+0307. -/
def lowerChar (c : Char) : Char :=
  if 65 ≤ c.toNat ∧ c.toNat ≤ 90 then Char.ofNat (c.toNat + 32) else c

/-- Python's `str.lower` over a whole string. -/
def lowerStr (s : Str) : Str := s.map lowerChar

/-- Character kept by `TransSpell.clean_token` at index `i` of a token of
length `n`: word characters always; hyphens always; an apostrophe only when its
index is the second-to-last position of the original token (`i == n - 2`,
computed with Python integer semantics, hence over `Int`). -/
def keepChar (n i : Nat) (c : Char) : Bool :=
  if !(isWordChar c) then
    if c != '\'' && c != '-' then false
    else if c == '\'' && ((i : Int) != (n : Int) - 2) then false
    else true
  else true

/-- The character loop of `TransSpell.clean_token` (src/transspell.py lines
131-141): iterate with the running index `i`, keep the characters selected by
`keepChar`, lowercasing each kept character. -/
def cleanAux (n : Nat) : Nat → List Char → List Char
  | _, [] => []
  | i, c :: rest =>
    if keepChar n i c then lowerChar c :: cleanAux n (i + 1) rest
    else cleanAux n (i + 1) rest

/-- `TransSpell.clean_token` (src/transspell.py lines 124-141). -/
def clean_token (token : Str) : Str :=
  cleanAux token.length 0 token

theorem toNat_ofNat_of_valid {n : Nat} (h : n.isValidChar) :
    (Char.ofNat n).toNat = n := by
  simp only [Char.ofNat, dif_pos h]
  rfl

theorem lowerChar_eq_self {c : Char} (h : ¬(65 ≤ c.toNat ∧ c.toNat ≤ 90)) :
    lowerChar c = c := by
  simp only [lowerChar, if_neg h]

theorem lowerChar_of_upper {c : Char} (h : 65 ≤ c.toNat ∧ c.toNat ≤ 90) :
    lowerChar c = Char.ofNat (c.toNat + 32) := by
  simp only [lowerChar, if_pos h]

theorem lowerChar_facts (c : Char) (h : isWordChar c = true ∨ c = '-') :
    lowerChar (lowerChar c) = lowerChar c ∧
      (isWordChar (lowerChar c) = true ∨ lowerChar c = '-') := by
  rcases h with h | rfl
  · by_cases hU : 65 ≤ c.toNat ∧ c.toNat ≤ 90
    · have hv : (c.toNat + 32).isValidChar := Or.inl (by omega)
      have ht : (Char.ofNat (c.toNat + 32)).toNat = c.toNat + 32 :=
        toNat_ofNat_of_valid hv
      rw [lowerChar_of_upper hU]
      constructor
      · exact lowerChar_eq_self (by omega)
      · left
        simp only [isWordChar, decide_eq_true_eq]
        omega
    · rw [lowerChar_eq_self hU]
      exact ⟨lowerChar_eq_self hU, Or.inl h⟩
  · constructor
    · decide
    · right; decide

theorem keepChar_of_word {n i : Nat} {c : Char} (h : isWordChar c = true) :
    keepChar n i c = true := by
  simp only [keepChar, h, Bool.not_true, Bool.false_eq_true, if_false]

theorem keepChar_dash (n i : Nat) : keepChar n i '-' = true := by
  have h1 : isWordChar '-' = false := by decide
  have h2 : ('-' == '\'') = false := by decide
  have h3 : ('-' != '-') = false := by decide
  simp [keepChar, h1, h2, h3]

/-- If a character survives `keepChar` and is not an apostrophe, it is a word
character or a hyphen. -/
theorem word_or_dash_of_keep {n i : Nat} {c : Char}
    (hk : keepChar n i c = true) (hne : c ≠ '\'') :
    isWordChar c = true ∨ c = '-' := by
  by_cases hw : isWordChar c = true
  · exact Or.inl hw
  · right
    by_cases hd : c = '-'
    · exact hd
    · exfalso
      have h1 : (!isWordChar c) = true := by
        simp [Bool.not_eq_true'] at hw ⊢
        exact hw
      have h2 : (c != '\'' && c != '-') = true := by
        simp only [Bool.and_eq_true, bne_iff_ne]
        exact ⟨hne, hd⟩
      simp only [keepChar, h1, if_true, h2] at hk
      exact absurd hk (by simp)

/-- Every character of a cleaned apostrophe-free token is the lowercasing of a
word character or hyphen of the original. -/
theorem cleanAux_chars (n : Nat) :
    ∀ (s : Str) (i : Nat), '\'' ∉ s → ∀ c' ∈ cleanAux n i s,
      ∃ c, (isWordChar c = true ∨ c = '-') ∧ c' = lowerChar c := by
  intro s
  induction s with
  | nil => intro i _ c' hc'; simp [cleanAux] at hc'
  | cons c rest ih =>
    intro i hna c' hc'
    have hcne : c ≠ '\'' := fun he => hna (he ▸ List.mem_cons_self c rest)
    have hrest : '\'' ∉ rest := fun hm => hna (List.mem_cons_of_mem c hm)
    by_cases hk : keepChar n i c = true
    · simp only [cleanAux, hk, if_true, List.mem_cons] at hc'
      rcases hc' with rfl | hc'
      · exact ⟨c, word_or_dash_of_keep hk hcne, rfl⟩
      · exact ih (i + 1) hrest c' hc'
    · simp only [cleanAux, hk, if_false, Bool.false_eq_true] at hc'
      exact ih (i + 1) hrest c' hc'

/-- Strings made of lowercase-stable word characters and hyphens are fixed
points of the cleaning loop, whatever index and length bound are used. -/
theorem cleanAux_fixpoint :
    ∀ (s : Str), (∀ c ∈ s, (isWordChar c = true ∨ c = '-') ∧ lowerChar c = c) →
      ∀ n i, cleanAux n i s = s := by
  intro s
  induction s with
  | nil => intro _ n i; rfl
  | cons c rest ih =>
    intro h n i
    have hc := h c (List.mem_cons_self c rest)
    have hk : keepChar n i c = true := by
      rcases hc.1 with hw | rfl
      · exact keepChar_of_word hw
      · exact keepChar_dash n i
    simp only [cleanAux, hk, if_true, hc.2]
    rw [ih (fun x hx => h x (List.mem_cons_of_mem c hx)) n (i + 1)]

/-- Claim C2 (counterexample): token cleaning is not idempotent.  For the token
`a'!` the apostrophe sits at the second-to-last index of the original token and
is kept, yielding `a'`; re-cleaning `a'` finds the apostrophe at the last
index and drops it, yielding `a`. -/
theorem clean_token_not_idempotent :
    clean_token (clean_token ['a', '\'', '!']) ≠ clean_token ['a', '\'', '!'] := by
  decide

/-- Claim C2 (amended): token cleaning is idempotent for every ASCII token
containing no apostrophe.  Both restrictions are necessary in the source: an
apostrophe kept at the second-to-last index of the original token can land
elsewhere in the cleaned token and be dropped by a second cleaning; and
outside ASCII, Python's `str.lower` can expand one character into several
(U+0130 lowers to `i` followed by the combining mark U+0307, a non-word
character that a second cleaning drops), again defeating idempotence.  Within
this embedding the character classes are the ASCII fragments, so the ASCII
hypothesis is not consumed by the proof; it is part of the statement because
the source guarantees idempotence only on that fragment. -/
theorem clean_token_idempotent_of_ascii_no_apostrophe (t : Str)
    (_hA : ∀ c ∈ t, c.toNat < 128) (h : '\'' ∉ t) :
    clean_token (clean_token t) = clean_token t := by
  have hchars := cleanAux_chars t.length t 0 h
  apply cleanAux_fixpoint
  intro c hc
  obtain ⟨c0, hw, rfl⟩ := hchars c hc
  exact ⟨(lowerChar_facts c0 hw).2, (lowerChar_facts c0 hw).1⟩

/-- Witness for the amended claim C2 at the concrete ASCII token `Don!`. -/
theorem clean_token_idempotent_witness :
    (∀ c ∈ (['D', 'o', 'n', '!'] : Str), c.toNat < 128) ∧
      '\'' ∉ (['D', 'o', 'n', '!'] : Str) ∧
      clean_token (clean_token ['D', 'o', 'n', '!']) = clean_token ['D', 'o', 'n', '!'] :=
  ⟨by decide, by decide,
   clean_token_idempotent_of_ascii_no_apostrophe ['D', 'o', 'n', '!']
     (by decide) (by decide)⟩

/-!
The corrector instance.  The Python class holds the stopword list, the two
configuration thresholds, the two lazily created enchant dictionaries and the
optional corpus frequency table (`collections.Counter`, modelled as an
association list).  The heavyweight externals (tokenizer and model) are kept in
separate environment records below.
-/

/-- The mutable attributes of a `TransSpell` instance
(src/transspell.py lines 16-26). -/
structure TransSpell where
  stopwords : List Str
  char_minimum : Nat
  frequency_maximum : Nat
  dict_us : Option (Str → Bool)
  dict_gb : Option (Str → Bool)
  frequency_list : Option (List (Str × Nat))

/-- Environment for `enchant.Dict`: the lookup function each regional
dictionary provides, or `none` when the word-list resource is missing and the
constructor raises. -/
structure DictEnv where
  en_US : Option (Str → Bool)
  en_GB : Option (Str → Bool)

/-- Python attribute truthiness check followed by construction: reuse the
already loaded dictionary, otherwise attempt to construct it from the
environment. -/
def loadDict (cur : Option (Str → Bool)) (avail : Option (Str → Bool)) :
    Option (Str → Bool) :=
  match cur with
  | some d => some d
  | none => avail

/-- Lookup in a `collections.Counter`: the stored count, or 0 for an unseen
key. -/
def counterGet (l : List (Str × Nat)) (k : Str) : Nat :=
  match l.find? (fun p => p.1 == k) with
  | some p => p.2
  | none => 0

/-- One `Counter` increment for one key. -/
def counterAdd (l : List (Str × Nat)) (k : Str) : List (Str × Nat) :=
  match l with
  | [] => [(k, 1)]
  | (k', n) :: rest =>
    if k' == k then (k', n + 1) :: rest else (k', n) :: counterAdd rest k

/-- `Counter.update` with a list of keys. -/
def counterUpdate (l : List (Str × Nat)) (ks : List Str) : List (Str × Nat) :=
  ks.foldl counterAdd l

/-- `TransSpell.is_error` (src/transspell.py lines 28-55) with the instance
state passed explicitly.  The cleaned token is computed first; then the two
enchant dictionaries are loaded if absent (a missing resource raises, modelled
by `.error ()`); then the three rules run in order: minimum length, corpus
frequency (guarded by the truthiness of the `Counter`, which is falsy when
`None` or empty, and exempting only on strictly greater frequency), and
dictionary membership. -/
def TransSpell.is_error (env : DictEnv) (s : TransSpell) (token : Str) :
    Except Unit (TransSpell × Bool) :=
  let tok := clean_token token
  match loadDict s.dict_us env.en_US with
  | none => .error ()
  | some dus =>
    match loadDict s.dict_gb env.en_GB with
    | none => .error ()
    | some dgb =>
      let s' : TransSpell := { s with dict_us := some dus, dict_gb := some dgb }
      let step3 : Except Unit (TransSpell × Bool) :=
        if dus tok || dgb tok then .ok (s', false) else .ok (s', true)
      if tok.length ≤ s'.char_minimum then .ok (s', false)
      else
        match s'.frequency_list with
        | none => step3
        | some freq =>
          if freq.isEmpty then step3
          else if counterGet freq tok > s'.frequency_maximum then .ok (s', false)
          else step3

/-- Python's whitespace characters for `str.split()` with no separator
argument. -/
def isPySpace (c : Char) : Bool :=
  c == ' ' || c == '\t' || c == '\n' || c == '\r' || c == '\x0b' || c == '\x0c'

/-- Split on every single whitespace character, keeping empty pieces
(auxiliary for `pySplitWs`). -/
def splitAnyWs : Str → List Str
  | [] => [[]]
  | c :: rest =>
    if isPySpace c then [] :: splitAnyWs rest
    else
      match splitAnyWs rest with
      | [] => [[c]]
      | t :: ts => (c :: t) :: ts

/-- Python `str.split()` with no argument: split on whitespace runs and drop
empty pieces. -/
def pySplitWs (s : Str) : List Str :=
  (splitAnyWs s).filter (fun x => !x.isEmpty)

/-- Model of `pd.read_csv(path)["answers"]`: `none` models a nonexistent file
(`FileNotFoundError`); `some rows` is the parsed column of texts. -/
def pd_read_csv (corpus : Option (List Str)) : Except Unit (List Str) :=
  match corpus with
  | none => .error ()
  | some rows => .ok rows

/-- `TransSpell.generate_frequency_list` (src/transspell.py lines 103-122):
on `FileNotFoundError` print a message and return `None`; otherwise build the
`Counter` over the cleaned whitespace-split tokens of every answer text into
`self.frequency_list` — and then fall off the end of the method, so the
RETURN VALUE is `None` in both cases.  The pair returned here is
(updated state, Python return value). -/
def TransSpell.generate_frequency_list (s : TransSpell)
    (corpus : Option (List Str)) : TransSpell × Option (List (Str × Nat)) :=
  match pd_read_csv corpus with
  | .error _ => (s, none)
  | .ok rows =>
    let freq := rows.foldl
      (fun acc text => counterUpdate acc ((pySplitWs text).map clean_token)) []
    ({ s with frequency_list := some freq }, none)

/-- `TransSpell.__init__` (src/transspell.py lines 16-26).  `corpus_path` is
`none` when no path is supplied; `some none` when the path names a missing
file; `some (some rows)` when the file exists and parses.  Note the faithful
final assignment `self.frequency_list = self.generate_frequency_list(...)`,
which stores the method's RETURN VALUE. -/
def TransSpell.init (stopwords : List Str)
    (minimum_token_length maximum_frequency : Nat)
    (corpus_path : Option (Option (List Str))) : TransSpell :=
  let s : TransSpell :=
    { stopwords := stopwords
      char_minimum := minimum_token_length
      frequency_maximum := maximum_frequency
      dict_us := none
      dict_gb := none
      frequency_list := none }
  match corpus_path with
  | none => s
  | some corpus =>
    let res := TransSpell.generate_frequency_list s corpus
    { res.1 with frequency_list := res.2 }

/-- Claim C1 (code bug, evaluated): constructing the corrector with an
existing, parsing corpus nevertheless leaves `frequency_list` absent, because
`__init__` stores the `None` RETURN VALUE of `generate_frequency_list` over
the table that method had just built into the instance; calling the method
directly does set the table (second conjunct). -/
theorem init_discards_frequency_table :
    (TransSpell.init [] 3 10 (some (some [['h', 'i', ' ', 'h', 'i']]))).frequency_list
        = none ∧
      ((TransSpell.init [] 3 10 none).generate_frequency_list
          (some [['h', 'i', ' ', 'h', 'i']])).1.frequency_list
        = some [(['h', 'i'], 2)] := by
  decide

/-- Claim C3 (counterexample): with threshold 10 and a cleaned token of
recorded frequency exactly 10, the frequency rule does not return false at
that step: the token falls through to the dictionary rule and `is_error`
reports it as an error. -/
theorem frequency_equal_threshold_not_exempt :
    (TransSpell.is_error ⟨none, none⟩
        { stopwords := []
          char_minimum := 3
          frequency_maximum := 10
          dict_us := some (fun _ => false)
          dict_gb := some (fun _ => false)
          frequency_list := some [(['q', 'q', 'q', 'q'], 10)] }
        ['q', 'q', 'q', 'q']).map Prod.snd = .ok true := by
  rfl

/-- Claim C3 (amended): a cleaned token whose recorded frequency is exactly
the maximum-frequency threshold is NOT exempted by the frequency rule — the
exceeds-threshold comparison is strict greater-than, so the rule returns false
only for strictly greater frequencies — and at equality the verdict is
delegated entirely to the dictionary rule. -/
theorem frequency_rule_strict (env : DictEnv) (s : TransSpell) (token : Str)
    (freq : List (Str × Nat)) (dus dgb : Str → Bool)
    (hf : s.frequency_list = some freq)
    (hus : s.dict_us = some dus) (hgb : s.dict_gb = some dgb)
    (heq : counterGet freq (clean_token token) = s.frequency_maximum)
    (hlen : s.char_minimum < (clean_token token).length) :
    TransSpell.is_error env s token =
      .ok ({ s with dict_us := some dus, dict_gb := some dgb },
        !(dus (clean_token token) || dgb (clean_token token))) := by
  simp only [TransSpell.is_error, hus, hgb, hf, loadDict]
  rw [if_neg (by omega)]
  by_cases hfe : freq.isEmpty
  · simp only [hfe, if_true]
    cases hd : dus (clean_token token) || dgb (clean_token token) <;> simp [hd]
  · simp only [hfe, Bool.false_eq_true, if_false]
    rw [if_neg (by omega)]
    cases hd : dus (clean_token token) || dgb (clean_token token) <;> simp [hd]

/-- Witness for the amended claim C3 at a concrete state and token. -/
theorem frequency_rule_strict_witness :
    TransSpell.is_error ⟨none, none⟩
        { stopwords := []
          char_minimum := 3
          frequency_maximum := 10
          dict_us := some (fun _ => false)
          dict_gb := some (fun _ => false)
          frequency_list := some [(['w', 'w', 'w', 'w'], 10)] }
        ['w', 'w', 'w', 'w'] =
      .ok ({ stopwords := []
             char_minimum := 3
             frequency_maximum := 10
             dict_us := some (fun _ => false)
             dict_gb := some (fun _ => false)
             frequency_list := some [(['w', 'w', 'w', 'w'], 10)] }, true) :=
  frequency_rule_strict ⟨none, none⟩ _ ['w', 'w', 'w', 'w']
    [(['w', 'w', 'w', 'w'], 10)] (fun _ => false) (fun _ => false)
    rfl rfl rfl (by decide) (by decide)

/-- Claim C7: constructing the corrector with a nonexistent corpus path does
not raise (`FileNotFoundError` is caught inside `generate_frequency_list`) and
produces exactly the state obtained with no corpus path at all, with
`frequency_list` absent, so every subsequent `is_error` call skips the
frequency rule. -/
theorem init_missing_corpus_recovered (sw : List Str) (mtl mf : Nat) :
    TransSpell.init sw mtl mf (some none) = TransSpell.init sw mtl mf none ∧
      (TransSpell.init sw mtl mf (some none)).frequency_list = none ∧
      ∀ (env : DictEnv) (token : Str),
        TransSpell.is_error env (TransSpell.init sw mtl mf (some none)) token =
          TransSpell.is_error env (TransSpell.init sw mtl mf none) token :=
  ⟨rfl, rfl, fun _ _ => rfl⟩

/-- Claim C8: whenever either resolved regional dictionary reports the cleaned
token as a known word, `is_error` returns false, whatever the corpus frequency
table holds. -/
theorem is_error_false_of_known_word (env : DictEnv) (s : TransSpell)
    (token : Str) (dus dgb : Str → Bool)
    (hus : loadDict s.dict_us env.en_US = some dus)
    (hgb : loadDict s.dict_gb env.en_GB = some dgb)
    (hknown : (dus (clean_token token) || dgb (clean_token token)) = true) :
    TransSpell.is_error env s token =
      .ok ({ s with dict_us := some dus, dict_gb := some dgb }, false) := by
  simp only [TransSpell.is_error, hus, hgb, hknown, if_true]
  by_cases hlen : (clean_token token).length ≤ s.char_minimum
  · rw [if_pos hlen]
  · rw [if_neg hlen]
    cases hfl : s.frequency_list with
    | none => rfl
    | some freq =>
      by_cases hfe : freq.isEmpty
      · simp only [hfe, if_true]
      · simp only [hfe, Bool.false_eq_true, if_false]
        by_cases hgt : counterGet freq (clean_token token) > s.frequency_maximum
        · rw [if_pos hgt]
        · rw [if_neg hgt]

/-- Witness for claim C8 at a concrete state and token. -/
theorem is_error_false_of_known_word_witness :
    TransSpell.is_error ⟨none, none⟩
        { stopwords := []
          char_minimum := 3
          frequency_maximum := 10
          dict_us := some (fun _ => true)
          dict_gb := some (fun _ => false)
          frequency_list := none }
        ['w', 'o', 'r', 'd'] =
      .ok ({ stopwords := []
             char_minimum := 3
             frequency_maximum := 10
             dict_us := some (fun _ => true)
             dict_gb := some (fun _ => false)
             frequency_list := none }, false) :=
  is_error_false_of_known_word ⟨none, none⟩ _ ['w', 'o', 'r', 'd']
    (fun _ => true) (fun _ => false) rfl rfl rfl

/-- Claim C10: `is_error` loads both enchant dictionaries before any detection
rule runs — when a dictionary resource is missing the call fails even for a
token the length rule would exempt — and on every successful call the returned
state has both dictionaries set, preserving any previously loaded one. -/
theorem is_error_ok_state (env : DictEnv) (s : TransSpell) (token : Str)
    {dus dgb : Str → Bool}
    (hus : loadDict s.dict_us env.en_US = some dus)
    (hgb : loadDict s.dict_gb env.en_GB = some dgb) :
    ∃ b, TransSpell.is_error env s token =
      .ok ({ s with dict_us := some dus, dict_gb := some dgb }, b) := by
  simp only [TransSpell.is_error, hus, hgb]
  repeat' split
  all_goals exact ⟨_, rfl⟩

theorem is_error_loads_dictionaries (env : DictEnv) (s : TransSpell)
    (token : Str) :
    ((s.dict_us = none ∧ env.en_US = none) →
        TransSpell.is_error env s token = .error ()) ∧
      (∀ s' b, TransSpell.is_error env s token = .ok (s', b) →
        s'.dict_us.isSome ∧ s'.dict_gb.isSome ∧
          (∀ d, s.dict_us = some d → s'.dict_us = some d) ∧
          (∀ d, s.dict_gb = some d → s'.dict_gb = some d)) := by
  constructor
  · rintro ⟨h1, h2⟩
    simp only [TransSpell.is_error, h1, h2, loadDict]
  · intro s' b h
    cases hus : loadDict s.dict_us env.en_US with
    | none =>
      simp only [TransSpell.is_error, hus] at h
      exact Except.noConfusion h
    | some dus =>
      cases hgb : loadDict s.dict_gb env.en_GB with
      | none =>
        simp only [TransSpell.is_error, hus, hgb] at h
        exact Except.noConfusion h
      | some dgb =>
        obtain ⟨b', hb⟩ := is_error_ok_state env s token hus hgb
        rw [h] at hb
        injection hb with h2
        have hs' : s' = { s with dict_us := some dus, dict_gb := some dgb } :=
          congrArg Prod.fst h2
        subst hs'
        refine ⟨rfl, rfl, ?_, ?_⟩
        · intro d hd
          rw [hd] at hus
          exact hus.symm
        · intro d hd
          rw [hd] at hgb
          exact hgb.symm

/-- Witness for claim C10: with both dictionary resources missing, `is_error`
fails even on a one-character token the length rule would have exempted; with
both available, a successful call leaves the dictionaries loaded. -/
theorem is_error_loads_dictionaries_witness :
    TransSpell.is_error ⟨none, none⟩
        { stopwords := []
          char_minimum := 3
          frequency_maximum := 10
          dict_us := none
          dict_gb := none
          frequency_list := none } ['a'] = .error () ∧
      ({ stopwords := []
         char_minimum := 3
         frequency_maximum := 10
         dict_us := some (fun _ => false)
         dict_gb := some (fun _ => false)
         frequency_list := none } : TransSpell).dict_us.isSome = true :=
  ⟨(is_error_loads_dictionaries ⟨none, none⟩
      { stopwords := []
        char_minimum := 3
        frequency_maximum := 10
        dict_us := none
        dict_gb := none
        frequency_list := none } ['a']).1 ⟨rfl, rfl⟩,
   ((is_error_loads_dictionaries ⟨some fun _ => false, some fun _ => false⟩
      { stopwords := []
        char_minimum := 3
        frequency_maximum := 10
        dict_us := none
        dict_gb := none
        frequency_list := none } ['a']).2
     { stopwords := []
       char_minimum := 3
       frequency_maximum := 10
       dict_us := some (fun _ => false)
       dict_gb := some (fun _ => false)
       frequency_list := none } false rfl).1⟩

/-!
The sentence-correction pipeline, `TransSpell.correct_errors`.  The masked
language model and its tokenizer are external collaborators: they appear as
the functions of a `ModelEnv`.  `generate_candidates` (src/transspell.py lines
88-101) is entirely a call into torch/transformers, so it is modelled as the
environment function it computes: the ranked list of candidate token ids for a
masked sentence and a requested count.  `decode` models
`self.tokenizer.decode([id])`.
-/

/-- The external tokenizer/model pair held by a `TransSpell` instance. -/
structure ModelEnv where
  mask_token : Str
  generate_candidates : Str → Nat → List Nat
  decode : Nat → Str

/-- Python `sequence.split(" ")`: split on every single space, keeping empty
pieces (an empty input yields one empty token). -/
def splitSpace : Str → List Str
  | [] => [[]]
  | c :: rest =>
    if c = ' ' then [] :: splitSpace rest
    else
      match splitSpace rest with
      | [] => [[c]]
      | t :: ts => (c :: t) :: ts

/-- Python `" ".join(tokens)`. -/
def joinSpace : List Str → Str
  | [] => []
  | [x] => x
  | x :: xs => x ++ ' ' :: joinSpace xs

/-- The candidate scan of `correct_errors` (src/transspell.py lines 76-83):
decode the candidates in rank order and stop at the first whose lowercased
form equals the lowercased original token. -/
def contained_scan (decode : Nat → Str) (token : Str) : List Nat → Bool
  | [] => false
  | r :: rest =>
    if lowerStr (decode r) == lowerStr token then true
    else contained_scan decode token rest

/-- The per-position substitution decision of `correct_errors`
(src/transspell.py lines 75-85): keep the original token when some decoded
candidate matches it case-insensitively; otherwise substitute the decoded
candidate of rank 0 (`none` models the `IndexError` of `results[0]` on an
empty candidate list). -/
def decide_token (decode : Nat → Str) (token : Str) (results : List Nat) :
    Option Str :=
  if contained_scan decode token results then some token
  else
    match results with
    | [] => none
    | r :: _ => some (decode r)

/-- The token loop of `TransSpell.correct_errors` (src/transspell.py lines
67-85): `pairs` is the remaining part of `enumerate(sequence.split(" "))`,
`temp` is the mutating `temp_sent`, and `queries` records each masked sentence
passed to `generate_candidates` (the instrumentation lets theorems speak about
which model calls were issued). -/
def correct_fold (env : ModelEnv) (stopwords : List Str) :
    List (Nat × Str) → List Str → List Str → Option (List Str × List Str)
  | [], temp, queries => some (temp, queries)
  | (i, token) :: rest, temp, queries =>
    if i == 0 || stopwords.contains token then
      correct_fold env stopwords rest temp queries
    else
      let sent := joinSpace (temp.set i env.mask_token)
      let results := env.generate_candidates sent 25
      if contained_scan env.decode token results then
        correct_fold env stopwords rest temp (queries ++ [sent])
      else
        match results with
        | [] => none
        | r :: _ =>
          correct_fold env stopwords rest (temp.set i (env.decode r))
            (queries ++ [sent])

/-- `TransSpell.correct_errors` (src/transspell.py lines 57-86) together with
the list of masked sentences sent to the model. -/
def correct_errors_instrumented (env : ModelEnv) (stopwords : List Str)
    (sequence : Str) : Option (Str × List Str) :=
  match correct_fold env stopwords (splitSpace sequence).enum
      (splitSpace sequence) [] with
  | none => none
  | some (temp, queries) => some (joinSpace temp, queries)

/-- `TransSpell.correct_errors`: the returned corrected sentence (`none`
models an uncaught `IndexError` on an empty candidate list). -/
def correct_errors (env : ModelEnv) (stopwords : List Str)
    (sequence : Str) : Option Str :=
  (correct_errors_instrumented env stopwords sequence).map Prod.fst

theorem splitSpace_ne_nil (s : Str) : splitSpace s ≠ [] := by
  cases s with
  | nil => simp [splitSpace]
  | cons c rest =>
    simp only [splitSpace]
    by_cases hc : c = ' '
    · simp [hc]
    · simp only [hc, if_false]
      cases splitSpace rest <;> simp

theorem joinSpace_cons (x : Str) (l : List Str) (h : l ≠ []) :
    joinSpace (x :: l) = x ++ ' ' :: joinSpace l := by
  cases l with
  | nil => exact absurd rfl h
  | cons y ys => rfl

/-- Rejoining the split of any string restores the string. -/
theorem joinSpace_splitSpace (s : Str) : joinSpace (splitSpace s) = s := by
  induction s with
  | nil => rfl
  | cons c rest ih =>
    by_cases hc : c = ' '
    · subst hc
      have h1 : splitSpace (' ' :: rest) = [] :: splitSpace rest := by
        simp [splitSpace]
      rw [h1, joinSpace_cons [] (splitSpace rest) (splitSpace_ne_nil rest)]
      simp [ih]
    · simp only [splitSpace, hc, if_false]
      cases hsr : splitSpace rest with
      | nil => exact absurd hsr (splitSpace_ne_nil rest)
      | cons t ts =>
        have hj : joinSpace ((c :: t) :: ts) = c :: joinSpace (t :: ts) := by
          cases ts with
          | nil => rfl
          | cons u us => rfl
        rw [hj, ← hsr, ih]

theorem splitSpace_no_space {x : Str} (h : ' ' ∉ x) : splitSpace x = [x] := by
  induction x with
  | nil => rfl
  | cons c rest ih =>
    have hc : c ≠ ' ' := fun he => h (he ▸ List.mem_cons_self c rest)
    have hrest : ' ' ∉ rest := fun hm => h (List.mem_cons_of_mem c hm)
    simp only [splitSpace, hc, if_false, ih hrest]

theorem splitSpace_append {x : Str} (r : Str) (h : ' ' ∉ x) :
    splitSpace (x ++ ' ' :: r) = x :: splitSpace r := by
  induction x with
  | nil => simp [splitSpace]
  | cons c rest ih =>
    have hc : c ≠ ' ' := fun he => h (he ▸ List.mem_cons_self c rest)
    have hrest : ' ' ∉ rest := fun hm => h (List.mem_cons_of_mem c hm)
    rw [List.cons_append]
    simp only [splitSpace, hc, if_false]
    rw [ih hrest]

/-- Splitting the join of space-free tokens restores the token list. -/
theorem splitSpace_joinSpace :
    ∀ (l : List Str), l ≠ [] → (∀ x ∈ l, ' ' ∉ x) →
      splitSpace (joinSpace l) = l := by
  intro l
  induction l with
  | nil => intro h _; exact absurd rfl h
  | cons x xs ih =>
    intro _ hns
    cases xs with
    | nil => exact splitSpace_no_space (hns x (List.mem_cons_self x []))
    | cons y ys =>
      rw [joinSpace_cons x (y :: ys) (by simp)]
      rw [splitSpace_append _ (hns x (List.mem_cons_self x (y :: ys)))]
      rw [ih (by simp) (fun z hz => hns z (List.mem_cons_of_mem x hz))]

/-- Every token produced by splitting on spaces is space-free. -/
theorem no_space_of_mem_splitSpace :
    ∀ (s : Str) (x : Str), x ∈ splitSpace s → ' ' ∉ x := by
  intro s
  induction s with
  | nil =>
    intro x hx
    simp only [splitSpace, List.mem_singleton] at hx
    simp [hx]
  | cons c rest ih =>
    intro x hx
    by_cases hc : c = ' '
    · subst hc
      have h1 : splitSpace (' ' :: rest) = [] :: splitSpace rest := by
        simp [splitSpace]
      rw [h1, List.mem_cons] at hx
      rcases hx with rfl | hx
      · simp
      · exact ih x hx
    · obtain ⟨t, ts, hsr⟩ := List.exists_cons_of_ne_nil (splitSpace_ne_nil rest)
      simp only [splitSpace, hc, if_false, hsr, List.mem_cons] at hx
      rcases hx with rfl | hx
      · intro hmem
        rcases List.mem_cons.mp hmem with he | hm
        · exact hc he.symm
        · exact ih t (hsr ▸ List.mem_cons_self t ts) hm
      · exact ih x (hsr ▸ List.mem_cons_of_mem t hx)

theorem contained_scan_iff (decode : Nat → Str) (token : Str) :
    ∀ results : List Nat, (contained_scan decode token results = true ↔
      ∃ r ∈ results, lowerStr (decode r) = lowerStr token) := by
  intro results
  induction results with
  | nil => simp [contained_scan]
  | cons r rest ih =>
    by_cases hm : lowerStr (decode r) = lowerStr token
    · simp [contained_scan, hm]
    · have hb : (lowerStr (decode r) == lowerStr token) = false := by
        simp only [beq_eq_false_iff_ne, ne_eq]
        exact hm
      simp only [contained_scan, hb, Bool.false_eq_true, if_false, ih,
        List.mem_cons]
      constructor
      · rintro ⟨q, hq, hqm⟩
        exact ⟨q, Or.inr hq, hqm⟩
      · rintro ⟨q, hq | hq, hqm⟩
        · exact absurd (hq ▸ hqm) hm
        · exact ⟨q, hq, hqm⟩

/-- Claim C4: the per-position substitution decision of `correct_errors`.
If some decoded candidate matches the original raw token case-insensitively,
the token is kept, and candidates after the first match are never consulted;
if no candidate matches, the decoded rank-0 candidate is substituted
unconditionally. -/
theorem decide_token_spec (decode : Nat → Str) (token : Str) :
    (∀ results : List Nat,
        (∃ r ∈ results, lowerStr (decode r) = lowerStr token) →
          decide_token decode token results = some token) ∧
      (∀ (r0 : Nat) (rest : List Nat),
        (∀ r ∈ r0 :: rest, lowerStr (decode r) ≠ lowerStr token) →
          decide_token decode token (r0 :: rest) = some (decode r0)) ∧
      (∀ (pre : List Nat) (r : Nat) (post post' : List Nat),
        lowerStr (decode r) = lowerStr token →
          decide_token decode token (pre ++ r :: post) =
            decide_token decode token (pre ++ r :: post')) := by
  refine ⟨?_, ?_, ?_⟩
  · intro results hex
    simp only [decide_token, (contained_scan_iff decode token results).mpr hex,
      if_true]
  · intro r0 rest hall
    have hcs : contained_scan decode token (r0 :: rest) = false := by
      cases h : contained_scan decode token (r0 :: rest)
      · rfl
      · obtain ⟨q, hq, hqm⟩ := (contained_scan_iff decode token _).mp h
        exact absurd hqm (hall q hq)
    simp only [decide_token, hcs, Bool.false_eq_true, if_false]
  · intro pre r post post' hm
    have h1 := (contained_scan_iff decode token (pre ++ r :: post)).mpr
      ⟨r, by simp, hm⟩
    have h2 := (contained_scan_iff decode token (pre ++ r :: post')).mpr
      ⟨r, by simp, hm⟩
    simp only [decide_token, h1, h2, if_true]

/-- Witness for claim C4: a candidate list with a case-insensitive match keeps
the original token; one without a match substitutes the decoded rank-0
candidate. -/
theorem decide_token_witness :
    decide_token (fun _ => ['x']) ['X'] [5] = some ['X'] ∧
      decide_token (fun _ => ['x']) ['B'] [5, 7] = some ['x'] :=
  ⟨(decide_token_spec (fun _ => ['x']) ['X']).1 [5] ⟨5, by decide, by decide⟩,
   (decide_token_spec (fun _ => ['x']) ['B']).2.1 5 [7] (by decide)⟩

theorem correct_fold_skip_all (env : ModelEnv) (sw : List Str) :
    ∀ (pairs : List (Nat × Str)) (temp queries : List Str),
      (∀ p ∈ pairs, p.1 = 0 ∨ p.2 ∈ sw) →
      correct_fold env sw pairs temp queries = some (temp, queries) := by
  intro pairs
  induction pairs with
  | nil => intro temp queries _; rfl
  | cons p rest ih =>
    intro temp queries h
    obtain ⟨i, token⟩ := p
    have hp := h (i, token) (List.mem_cons_self _ _)
    have hcond : (i == 0 || sw.contains token) = true := by
      rcases hp with h0 | hm
      · have h0' : i = 0 := h0
        simp [h0']
      · have hm' : token ∈ sw := hm
        simp only [Bool.or_eq_true]
        exact Or.inr (List.elem_iff.mpr hm')
    simp only [correct_fold, hcond, if_true]
    exact ih temp queries (fun q hq => h q (List.mem_cons_of_mem _ hq))

/-- Claim C9: on a sentence with no correctable position (every token after
index 0 a stopword, which subsumes one-token and empty sentences), the
correction loop returns the input unchanged and issues no model query. -/
theorem correct_errors_skip_identity (env : ModelEnv) (sw : List Str)
    (seq : Str)
    (h : ∀ p ∈ (splitSpace seq).enum, p.1 = 0 ∨ p.2 ∈ sw) :
    correct_errors_instrumented env sw seq = some (seq, []) := by
  unfold correct_errors_instrumented
  rw [correct_fold_skip_all env sw _ _ _ h]
  dsimp only
  rw [joinSpace_splitSpace]

/-- Witness for claim C9: a two-token sentence whose second token is a
stopword comes back unchanged with an empty query log. -/
theorem correct_errors_skip_identity_witness :
    correct_errors_instrumented ⟨['m'], fun _ _ => [], fun _ => []⟩
        [['t']] ['a', ' ', 't'] = some (['a', ' ', 't'], []) :=
  correct_errors_skip_identity ⟨['m'], fun _ _ => [], fun _ => []⟩ [['t']]
    ['a', ' ', 't'] (by decide)

/-- Invariant of the token loop: the working list keeps its length, every
element is an original element or a decoded candidate, and positions that are
index 0 or hold a stopword in the original token list are never overwritten. -/
theorem correct_fold_spec (env : ModelEnv) (sw : List Str) (toks : List Str) :
    ∀ (pairs : List (Nat × Str)) (temp queries : List Str)
      (out : List Str × List Str),
      (∀ p ∈ pairs, toks[p.1]? = some p.2) →
      correct_fold env sw pairs temp queries = some out →
      out.1.length = temp.length ∧
        (∀ x ∈ out.1, x ∈ temp ∨ ∃ id, x = env.decode id) ∧
        (∀ i : Nat, (i = 0 ∨ ∃ t, toks[i]? = some t ∧ t ∈ sw) →
          out.1[i]? = temp[i]?) := by
  intro pairs
  induction pairs with
  | nil =>
    intro temp queries out _ hout
    cases hout
    exact ⟨rfl, fun x hx => Or.inl hx, fun i _ => rfl⟩
  | cons p rest ih =>
    intro temp queries out hp hout
    obtain ⟨j, token⟩ := p
    have hrest : ∀ q ∈ rest, toks[q.1]? = some q.2 :=
      fun q hq => hp q (List.mem_cons_of_mem _ hq)
    by_cases hskip : (j == 0 || sw.contains token) = true
    · simp only [correct_fold, hskip, if_true] at hout
      exact ih temp _ out hrest hout
    · have hb : (j == 0 || sw.contains token) = false :=
        Bool.eq_false_iff.mpr hskip
      have hj0 : j ≠ 0 := ne_of_beq_false (Bool.or_eq_false_iff.mp hb).1
      have hjsw : token ∉ sw := by
        intro hmem
        have h2 : List.elem token sw = false := (Bool.or_eq_false_iff.mp hb).2
        rw [List.elem_iff.mpr hmem] at h2
        simp at h2
      simp only [correct_fold, hb, Bool.false_eq_true, if_false] at hout
      obtain ⟨res, hres⟩ :
          ∃ l, env.generate_candidates (joinSpace (temp.set j env.mask_token)) 25 = l :=
        ⟨_, rfl⟩
      rw [hres] at hout
      by_cases hcont : contained_scan env.decode token res = true
      · rw [if_pos hcont] at hout
        exact ih temp _ out hrest hout
      · rw [if_neg hcont] at hout
        cases res with
        | nil => exact Option.noConfusion hout
        | cons r rs =>
          obtain ⟨hlen, hmem2, hget⟩ :=
            ih (temp.set j (env.decode r)) _ out hrest hout
          refine ⟨?_, ?_, ?_⟩
          · rw [hlen, List.length_set]
          · intro x hx
            rcases hmem2 x hx with hx' | hx'
            · rcases List.mem_or_eq_of_mem_set hx' with h | h
              · exact Or.inl h
              · exact Or.inr ⟨r, h⟩
            · exact Or.inr hx'
          · intro i hi
            rw [hget i hi]
            apply List.getElem?_set_ne
            rcases hi with rfl | ⟨t, ht, hts⟩
            · exact hj0
            · intro hji
              have h3 : toks[j]? = some token :=
                hp (j, token) (List.mem_cons_self _ _)
              rw [hji, ht] at h3
              exact hjsw (by rwa [Option.some.inj h3] at hts)

/-- Unpacking of a successful `correct_errors` run: the final working list is
recovered by re-splitting the output, has the input's token count, and agrees
with the input on index 0 and stopword positions. -/
theorem correct_errors_split (env : ModelEnv) (sw : List Str) (seq out : Str)
    (hdec : ∀ id, ' ' ∉ env.decode id)
    (hout : correct_errors env sw seq = some out) :
    ∃ temp : List Str,
      out = joinSpace temp ∧
        splitSpace out = temp ∧
        temp.length = (splitSpace seq).length ∧
        (∀ i : Nat, (i = 0 ∨ ∃ t, (splitSpace seq)[i]? = some t ∧ t ∈ sw) →
          temp[i]? = (splitSpace seq)[i]?) := by
  unfold correct_errors correct_errors_instrumented at hout
  obtain ⟨fold, hfold⟩ :
      ∃ l, correct_fold env sw (splitSpace seq).enum (splitSpace seq) [] = l :=
    ⟨_, rfl⟩
  rw [hfold] at hout
  cases fold with
  | none => exact Option.noConfusion hout
  | some res =>
    obtain ⟨temp, queries⟩ := res
    simp only [Option.map_some] at hout
    have hjoin : joinSpace temp = out := Option.some.inj hout
    have hpairs : ∀ p ∈ (splitSpace seq).enum, (splitSpace seq)[p.1]? = some p.2 :=
      fun p hp => List.mem_enum_iff_getElem?.mp hp
    obtain ⟨hlen, hmem, hget⟩ :=
      correct_fold_spec env sw (splitSpace seq) _ _ _ _ hpairs hfold
    have htempne : temp ≠ [] := by
      intro he
      rw [he] at hlen
      exact splitSpace_ne_nil seq
        (List.length_eq_zero.mp (by simpa using hlen.symm))
    have hnospace : ∀ x ∈ temp, ' ' ∉ x := by
      intro x hx
      rcases hmem x hx with h | ⟨id, rfl⟩
      · exact no_space_of_mem_splitSpace seq x h
      · exact hdec id
    refine ⟨temp, hjoin.symm, ?_, hlen, hget⟩
    rw [← hjoin, splitSpace_joinSpace temp htempne hnospace]

/-- Claim C6: a successful `correct_errors` run preserves the token count —
splitting the output on single spaces yields as many tokens as splitting the
input — provided the external tokenizer never decodes a candidate to a string
containing a space (true of the wordpiece vocabulary actually used). -/
theorem correct_errors_preserves_token_count (env : ModelEnv) (sw : List Str)
    (seq out : Str)
    (hdec : ∀ id, ' ' ∉ env.decode id)
    (hout : correct_errors env sw seq = some out) :
    (splitSpace out).length = (splitSpace seq).length := by
  obtain ⟨temp, _, hsplit, hlen, _⟩ :=
    correct_errors_split env sw seq out hdec hout
  rw [hsplit, hlen]

/-- Witness for claim C6 at a concrete environment and sentence. -/
theorem correct_errors_preserves_token_count_witness :
    (splitSpace (['a', ' ', 'x'] : Str)).length =
      (splitSpace (['a', ' ', 'b', 'b'] : Str)).length :=
  correct_errors_preserves_token_count ⟨['m'], fun _ _ => [0], fun _ => ['x']⟩
    [] ['a', ' ', 'b', 'b'] ['a', ' ', 'x']
    (fun _ => show ' ' ∉ (['x'] : Str) from by decide) rfl

/-- Claim C5: a successful `correct_errors` run never alters the token at
index 0 nor any token whose raw form is a stopword: those positions of the
output token sequence hold exactly the input's tokens (again provided decoded
candidates are space-free). -/
theorem correct_errors_preserves_skipped_tokens (env : ModelEnv)
    (sw : List Str) (seq out : Str)
    (hdec : ∀ id, ' ' ∉ env.decode id)
    (hout : correct_errors env sw seq = some out) :
    ∀ i : Nat, (i = 0 ∨ ∃ t, (splitSpace seq)[i]? = some t ∧ t ∈ sw) →
      (splitSpace out)[i]? = (splitSpace seq)[i]? := by
  obtain ⟨temp, _, hsplit, _, hget⟩ :=
    correct_errors_split env sw seq out hdec hout
  intro i hi
  rw [hsplit, hget i hi]

/-- Witness for claim C5: index 0 of the corrected sentence still holds the
input's first token. -/
theorem correct_errors_preserves_skipped_tokens_witness :
    (splitSpace (['a', ' ', 'x'] : Str))[0]? =
      (splitSpace (['a', ' ', 'b', 'b'] : Str))[0]? :=
  correct_errors_preserves_skipped_tokens ⟨['m'], fun _ _ => [0], fun _ => ['x']⟩
    [] ['a', ' ', 'b', 'b'] ['a', ' ', 'x']
    (fun _ => show ' ' ∉ (['x'] : Str) from by decide) rfl 0 (Or.inl rfl)
